import Mathlib

/-!
Verification of the rustHtmlBuilder core (src/lib.rs) against its
natural-language specification.

Strings are modelled as `List Char` (a Rust `String` traversed by `chars()`).
Each definition is a direct translation of the correspondingly named item in
`src/lib.rs`.
-/

namespace RustHtmlBuilder

/-- One step of `escape_ascii`'s match: the replacement text pushed for a
single character (src/lib.rs lines 10-18). -/
def escChar (c : Char) : List Char :=
  if c = '"' then ['&', 'q', 'u', 'o', 't', ';']
  else if c = '\'' then ['&', 'a', 'p', 'o', 's', ';']
  else if c = '&' then ['&', 'a', 'm', 'p', ';']
  else if c = '<' then ['&', 'l', 't', ';']
  else if c = '>' then ['&', 'g', 't', ';']
  else [c]

/-- `escape_ascii` (src/lib.rs lines 7-22): one left-to-right pass pushing
`escChar` of each character. -/
def escape_ascii : List Char → List Char
  | [] => []
  | c :: rest => escChar c ++ escape_ascii rest

/-- The inner `while` loop of `un_escape_ascii` (src/lib.rs lines 30-36):
consume characters up to and including the next `;`; the consumed name and
the rest of the input.  When no `;` remains the whole input is consumed. -/
def takeName : List Char → List Char × List Char
  | [] => ([], [])
  | c :: rest =>
    if c = ';' then ([], rest)
    else
      let p := takeName rest
      (c :: p.1, p.2)

/-- The `match name.as_str()` of `un_escape_ascii` (src/lib.rs lines 37-44):
the character pushed for a consumed candidate entity name. -/
def decodeName (name : List Char) : Char :=
  if name = ['q', 'u', 'o', 't'] then '"'
  else if name = ['a', 'p', 'o', 's'] then '\''
  else if name = ['a', 'm', 'p'] then '&'
  else if name = ['l', 't'] then '<'
  else if name = ['g', 't'] then '>'
  else '&'

theorem takeName_snd_length (l : List Char) : (takeName l).2.length ≤ l.length := by
  induction l with
  | nil => simp [takeName]
  | cons c rest ih =>
    simp only [takeName]
    split
    · simp
    · simpa using Nat.le_succ_of_le ih

/-- `un_escape_ascii` (src/lib.rs lines 24-51): scan left to right; on `&`,
consume up to and including the next `;` and push the decoded character;
any other character is pushed unchanged. -/
def un_escape_ascii : List Char → List Char
  | [] => []
  | c :: rest =>
    if c = '&' then
      decodeName (takeName rest).1 :: un_escape_ascii (takeName rest).2
    else
      c :: un_escape_ascii rest
termination_by l => l.length
decreasing_by
  · have := takeName_snd_length rest
    simp only [List.length_cons]
    omega
  · simp

theorem unEsc_nil : un_escape_ascii [] = [] := by
  rw [un_escape_ascii.eq_def]

theorem unEsc_cons (c : Char) (rest : List Char) :
    un_escape_ascii (c :: rest) =
      if c = '&' then
        decodeName (takeName rest).1 :: un_escape_ascii (takeName rest).2
      else
        c :: un_escape_ascii rest := by
  rw [un_escape_ascii.eq_def]

theorem takeName_append_semi {name : List Char} (h : ';' ∉ name) (t : List Char) :
    takeName (name ++ ';' :: t) = (name, t) := by
  induction name with
  | nil => simp [takeName]
  | cons c rest ih =>
    have hc : c ≠ ';' := fun hc => h (by simp [hc])
    have hr : ';' ∉ rest := fun hr => h (List.mem_cons_of_mem _ hr)
    simp [takeName, hc, ih hr]

theorem unEsc_cons_not_amp {c : Char} (h : c ≠ '&') (t : List Char) :
    un_escape_ascii (c :: t) = c :: un_escape_ascii t := by
  rw [unEsc_cons, if_neg h]

/-- Processing the escaped form of one character undoes the escape. -/
theorem unEsc_escChar (c : Char) (t : List Char) :
    un_escape_ascii (escChar c ++ t) = c :: un_escape_ascii t := by
  by_cases h1 : c = '"'
  · subst h1
    have e1 : escChar '"' = ['&', 'q', 'u', 'o', 't', ';'] := by decide
    have ht : takeName (['q', 'u', 'o', 't'] ++ ';' :: t) = (['q', 'u', 'o', 't'], t) :=
      @takeName_append_semi ['q', 'u', 'o', 't'] (by decide) t
    simp only [List.cons_append, List.nil_append] at ht
    rw [e1]
    simp only [List.cons_append, List.nil_append]
    rw [unEsc_cons, if_pos rfl, ht]
    have hd : decodeName ['q', 'u', 'o', 't'] = '"' := by decide
    rw [hd]
  · by_cases h2 : c = '\''
    · subst h2
      have e1 : escChar '\'' = ['&', 'a', 'p', 'o', 's', ';'] := by decide
      have ht : takeName (['a', 'p', 'o', 's'] ++ ';' :: t) = (['a', 'p', 'o', 's'], t) :=
        @takeName_append_semi ['a', 'p', 'o', 's'] (by decide) t
      simp only [List.cons_append, List.nil_append] at ht
      rw [e1]
      simp only [List.cons_append, List.nil_append]
      rw [unEsc_cons, if_pos rfl, ht]
      have hd : decodeName ['a', 'p', 'o', 's'] = '\'' := by decide
      rw [hd]
    · by_cases h3 : c = '&'
      · subst h3
        have e1 : escChar '&' = ['&', 'a', 'm', 'p', ';'] := by decide
        have ht : takeName (['a', 'm', 'p'] ++ ';' :: t) = (['a', 'm', 'p'], t) :=
          @takeName_append_semi ['a', 'm', 'p'] (by decide) t
        simp only [List.cons_append, List.nil_append] at ht
        rw [e1]
        simp only [List.cons_append, List.nil_append]
        rw [unEsc_cons, if_pos rfl, ht]
        have hd : decodeName ['a', 'm', 'p'] = '&' := by decide
        rw [hd]
      · by_cases h4 : c = '<'
        · subst h4
          have e1 : escChar '<' = ['&', 'l', 't', ';'] := by decide
          have ht : takeName (['l', 't'] ++ ';' :: t) = (['l', 't'], t) :=
            @takeName_append_semi ['l', 't'] (by decide) t
          simp only [List.cons_append, List.nil_append] at ht
          rw [e1]
          simp only [List.cons_append, List.nil_append]
          rw [unEsc_cons, if_pos rfl, ht]
          have hd : decodeName ['l', 't'] = '<' := by decide
          rw [hd]
        · by_cases h5 : c = '>'
          · subst h5
            have e1 : escChar '>' = ['&', 'g', 't', ';'] := by decide
            have ht : takeName (['g', 't'] ++ ';' :: t) = (['g', 't'], t) :=
              @takeName_append_semi ['g', 't'] (by decide) t
            simp only [List.cons_append, List.nil_append] at ht
            rw [e1]
            simp only [List.cons_append, List.nil_append]
            rw [unEsc_cons, if_pos rfl, ht]
            have hd : decodeName ['g', 't'] = '>' := by decide
            rw [hd]
          · rw [escChar]
            simp only [if_neg h1, if_neg h2, if_neg h3, if_neg h4, if_neg h5,
              List.cons_append, List.nil_append]
            exact unEsc_cons_not_amp h3 t

/-- Escaping followed by unescaping is the identity on every string: every
`&` in the output of `escape_ascii` opens one of the five entities, so the
lossy fallback of `un_escape_ascii` is never reached. -/
theorem unEsc_escape (x : List Char) : un_escape_ascii (escape_ascii x) = x := by
  induction x with
  | nil => exact unEsc_nil
  | cons c rest ih =>
    rw [escape_ascii, unEsc_escChar, ih]

/-! ## The `Element` node and its content/attribute operations

An `Element` is modelled as an inductive tree: tag, content, attribute map,
the two flags, and the owned children (`Vec<Element>`).  The `parent` back
reference plays no role in any of the operations below (construction,
attribute and content setters, raw-mode toggling, rendering); the structural
`parent`/`children` bookkeeping of `add`/`remove_*` is modelled separately by
`TreeSt` further down.  The attribute `HashMap<&str, String>` is modelled as
an association list with unique keys; its iteration order is
implementation-defined in the source and the list order stands in for it. -/

inductive Element where
  | mk (tag content : List Char) (kws : List (List Char × List Char))
       (onetag : Bool) (preFlag : Bool) (children : List Element)

def Element.tag : Element → List Char
  | .mk t _ _ _ _ _ => t

def Element.content : Element → List Char
  | .mk _ c _ _ _ _ => c

/-- The stored attribute map (field `kws` of `ElementInner`). -/
def Element.kwsMap : Element → List (List Char × List Char)
  | .mk _ _ k _ _ _ => k

def Element.onetagFlag : Element → Bool
  | .mk _ _ _ o _ _ => o

def Element.preFlag : Element → Bool
  | .mk _ _ _ _ p _ => p

def Element.childrenList : Element → List Element
  | .mk _ _ _ _ _ ch => ch

/-- `HashMap::insert`: overwrite the value when the key is already present,
otherwise add the binding. -/
def insertKw (m : List (List Char × List Char)) (k v : List Char) :
    List (List Char × List Char) :=
  if k ∈ m.map Prod.fst then
    m.map (fun kv => if kv.1 = k then (k, v) else kv)
  else
    m ++ [(k, v)]

/-- Lookup in the modelled attribute map (first binding of the key). -/
def lookupKw : List (List Char × List Char) → List Char → Option (List Char)
  | [], _ => none
  | kv :: rest, k => if kv.1 = k then some kv.2 else lookupKw rest k

/-- Apply `f` to every stored attribute value (the
`for (_, v) in &mut kws { *v = f(v) }` loops of the source). -/
def mapVals (f : List Char → List Char) (m : List (List Char × List Char)) :
    List (List Char × List Char) :=
  m.map fun kv => (kv.1, f kv.2)

/-- `Element::new` (src/lib.rs lines 79-92): tag verbatim, content escaped,
flags off, empty attribute map, no children. -/
def Element.new (tag content : List Char) : Element :=
  .mk tag (escape_ascii content) [] false false []

/-- `Element::kws` (src/lib.rs lines 98-104): escape every value of the given
map, then replace the whole attribute map.  The `pre` flag is not consulted. -/
def Element.kws : Element → List (List Char × List Char) → Element
  | .mk t c _ o p ch, m => .mk t c (mapVals escape_ascii m) o p ch

/-- The `HashMap` built by `Element::attrs` (src/lib.rs lines 111-114):
insert each pair with the value escaped. -/
def attrsBuildMap (l : List (List Char × List Char)) :
    List (List Char × List Char) :=
  l.foldl (fun m kv => insertKw m kv.1 (escape_ascii kv.2)) []

/-- `Element::attrs` (src/lib.rs lines 110-116): build a map with each value
escaped, then call `kws` on it (which escapes every value again). -/
def Element.attrs (e : Element) (l : List (List Char × List Char)) : Element :=
  e.kws (attrsBuildMap l)

/-- `Element::onetag` (src/lib.rs lines 120-123): pure flag set. -/
def Element.onetag : Element → Bool → Element
  | .mk t c k _ p ch, b => .mk t c k b p ch

/-- `Element::pre` (src/lib.rs lines 127-139): store the flag; when the
argument is true, un-escape the stored content and every stored attribute
value (regardless of the previous flag value). -/
def Element.pre : Element → Bool → Element
  | .mk t c k o _ ch, b =>
    if b then
      .mk t (un_escape_ascii c) (mapVals un_escape_ascii k) o b ch
    else
      .mk t c k o b ch

/-- `Element::set_attr` (src/lib.rs lines 158-161): insert-or-overwrite one
attribute; the value is escaped unconditionally (the `pre` flag is not
consulted). -/
def Element.set_attr : Element → List Char → List Char → Element
  | .mk t c k o p ch, name, v => .mk t c (insertKw k name (escape_ascii v)) o p ch

/-- `Element::set_attrs` (src/lib.rs lines 164-171): `set_attr` on each pair. -/
def Element.set_attrs (e : Element) (l : List (List Char × List Char)) : Element :=
  l.foldl (fun a kv => a.set_attr kv.1 kv.2) e

/-- `Element::configcnt` (src/lib.rs lines 183-191): replace the content,
escaped unless the node is in raw mode. -/
def Element.configcnt : Element → List Char → Element
  | .mk t _ k o p ch, c => .mk t (if p then c else escape_ascii c) k o p ch

/-- `Element::configkws` (src/lib.rs lines 196-205): escape the values only
when the node is not in raw mode, then replace the whole attribute map. -/
def Element.configkws : Element → List (List Char × List Char) → Element
  | .mk t c _ o p ch, m => .mk t c (if p then m else mapVals escape_ascii m) o p ch

/-- The attribute segment of `render` (src/lib.rs lines 255-257):
`format!(" {}=\"{}\"", k, v)` appended for each stored entry in iteration
order. -/
def attrsText (kws : List (List Char × List Char)) : List Char :=
  kws.foldl (fun acc kv => acc ++ [' '] ++ kv.1 ++ ['=', '"'] ++ kv.2 ++ ['"']) []

mutual

/-- `Element::render` (src/lib.rs lines 245-282). -/
def Element.render : Element → List Char → List Char
  | .mk tag content kws onetag _ children, split_s =>
    if tag = [] then content
    else
      let base := '<' :: (tag ++ attrsText kws ++ ['>'] ++ content
        ++ renderChildren children split_s)
      if onetag then base ++ split_s
      else if children.isEmpty then base ++ '<' :: '/' :: (tag ++ ['>'])
      else base ++ split_s ++ '<' :: '/' :: (tag ++ ['>'])

/-- The child loop of `render` (src/lib.rs lines 263-267): for each child,
the separator then the child's rendering. -/
def renderChildren : List Element → List Char → List Char
  | [], _ => []
  | c :: cs, split_s => split_s ++ c.render split_s ++ renderChildren cs split_s

end

/-! ## The tree structure: `add` and the `remove_*` operations

The `Rc<RefCell<ElementInner>>` graph is modelled as an arena: nodes are
addressed by stable ids (`Nat`), `parent` models the `Option<Weak<..>>` back
reference and `children` the owning `Vec<Element>` as a list of ids.  Every
node persists in the arena, so a stored parent reference always upgrades. -/

structure TreeSt where
  parent : Nat → Option Nat
  children : Nat → List Nat

/-- The initial forest: every node detached, no children. -/
def initSt : TreeSt := ⟨fun _ => none, fun _ => []⟩

/-- `Element::add` (src/lib.rs lines 142-149): set the child's parent back
reference to the parent, then push the child onto the parent's children
vector.  For `p = c` the source's second `borrow_mut` on the same `RefCell`
panics before any write, leaving the state unchanged; the guard mirrors
that. -/
def addOp (s : TreeSt) (p c : Nat) : TreeSt :=
  if p = c then s
  else
    { parent := fun n => if n = c then some p else s.parent n,
      children := fun n => if n = p then s.children p ++ [c] else s.children n }

/-- `position(|x| x == child)` (src/lib.rs line 227): index of the first
occurrence, by `Rc` identity. -/
def position : List Nat → Nat → Option Nat
  | [], _ => none
  | x :: rest, c => if x = c then some 0 else (position rest c).map (· + 1)

/-- `Element::remove_child` (src/lib.rs lines 213-222): when the index is in
bounds, remove that child from the vector, clear its parent reference and
return it; otherwise return `None` with the state unchanged. -/
def remove_child (s : TreeSt) (p : Nat) (i : Nat) : Option Nat × TreeSt :=
  if h : i < (s.children p).length then
    let c := (s.children p).get ⟨i, h⟩
    (some c,
      { parent := fun n => if n = c then none else s.parent n,
        children := fun n => if n = p then (s.children p).eraseIdx i else s.children n })
  else
    (none, s)

/-- `Element::remove_child_by_ref` (src/lib.rs lines 225-234): remove the
first child with the same identity and clear its parent reference, returning
whether a removal happened. -/
def remove_child_by_ref (s : TreeSt) (p c : Nat) : Bool × TreeSt :=
  match position (s.children p) c with
  | some i =>
    (true,
      { parent := fun n => if n = c then none else s.parent n,
        children := fun n => if n = p then (s.children p).eraseIdx i else s.children n })
  | none => (false, s)

/-- `Element::remove_all_children` (src/lib.rs lines 237-242): drain the
children vector, clearing each drained child's parent reference. -/
def remove_all_children (s : TreeSt) (p : Nat) : TreeSt :=
  { parent := fun n => if n ∈ s.children p then none else s.parent n,
    children := fun n => if n = p then [] else s.children n }

/-- A mutating structural operation of the API. -/
inductive TreeOp where
  | add (p c : Nat)
  | removeChild (p i : Nat)
  | removeByRef (p c : Nat)
  | removeAll (p : Nat)

def applyOp (s : TreeSt) : TreeOp → TreeSt
  | .add p c => addOp s p c
  | .removeChild p i => (remove_child s p i).2
  | .removeByRef p c => (remove_child_by_ref s p c).2
  | .removeAll p => remove_all_children s p

def execOps (s : TreeSt) : List TreeOp → TreeSt
  | [] => s
  | op :: rest => execOps (applyOp s op) rest

/-- The precondition of the claim being checked: a node is only attached
while it has no parent.  The `remove_*` operations carry no precondition. -/
def precondOk (s : TreeSt) : TreeOp → Prop
  | .add _ c => s.parent c = none
  | _ => True

def ValidFrom (s : TreeSt) : List TreeOp → Prop
  | [] => True
  | op :: rest => precondOk s op ∧ ValidFrom (applyOp s op) rest

/-- Bidirectional consistency of the tree: a child listed under a parent
resolves its parent reference to that parent, a parent reference is matched
by a children-list entry, and no children list holds duplicates. -/
def Consistent (s : TreeSt) : Prop :=
  (∀ p c, c ∈ s.children p → s.parent c = some p)
  ∧ (∀ c p, s.parent c = some p → c ∈ s.children p)
  ∧ (∀ p, (s.children p).Nodup)

theorem consistent_initSt : Consistent initSt := by
  refine ⟨fun p c hc => ?_, fun c p hc => ?_, fun p => ?_⟩
  · simp [initSt] at hc
  · simp [initSt] at hc
  · simp [initSt]

theorem position_some {l : List Nat} {c i : Nat} (h : position l c = some i) :
    ∃ hi : i < l.length, l.get ⟨i, hi⟩ = c := by
  induction l generalizing i with
  | nil => simp [position] at h
  | cons x rest ih =>
    by_cases hx : x = c
    · simp only [position, if_pos hx] at h
      obtain rfl : (0 : Nat) = i := Option.some.inj h
      exact ⟨Nat.succ_pos _, hx⟩
    · simp only [position, if_neg hx, Option.map_eq_some'] at h
      obtain ⟨j, hj, rfl⟩ := h
      obtain ⟨hjl, hjc⟩ := ih hj
      exact ⟨Nat.succ_lt_succ hjl, hjc⟩

theorem position_none_iff {l : List Nat} {c : Nat} :
    position l c = none ↔ c ∉ l := by
  induction l with
  | nil => simp [position]
  | cons x rest ih =>
    simp only [position, List.mem_cons]
    by_cases hx : x = c
    · subst hx
      simp
    · rw [if_neg hx]
      constructor
      · intro h hc
        rcases hc with rfl | hc'
        · exact hx rfl
        · exact (ih.1 (Option.map_eq_none'.1 h)) hc'
      · intro h
        exact Option.map_eq_none'.2 (ih.2 fun hc' => h (Or.inr hc'))

theorem consistent_addOp {s : TreeSt} (p c : Nat) (h : Consistent s)
    (hc : s.parent c = none) : Consistent (addOp s p c) := by
  obtain ⟨h1, h2, h3⟩ := h
  by_cases hpc : p = c
  · simpa [addOp, hpc] using ⟨h1, h2, h3⟩
  · have hcnot : ∀ q, c ∉ s.children q := by
      intro q hq
      rw [h1 q c hq] at hc
      exact Option.noConfusion hc
    refine ⟨?_, ?_, ?_⟩
    · intro q x hx
      simp only [addOp, if_neg hpc] at hx ⊢
      by_cases hq : q = p
      · subst hq
        rw [if_pos rfl] at hx
        rcases List.mem_append.1 hx with hx' | hx'
        · have hxc : x ≠ c := fun hxc => hcnot q (hxc ▸ hx')
          rw [if_neg hxc]
          exact h1 q x hx'
        · have hxc : x = c := by simpa using hx'
          subst hxc
          rw [if_pos rfl]
      · rw [if_neg hq] at hx
        have hxc : x ≠ c := fun hxc => hcnot q (hxc ▸ hx)
        rw [if_neg hxc]
        exact h1 q x hx
    · intro x q hx
      simp only [addOp, if_neg hpc] at hx ⊢
      by_cases hxc : x = c
      · subst hxc
        rw [if_pos rfl] at hx
        obtain rfl : p = q := Option.some.inj hx
        rw [if_pos rfl]
        exact List.mem_append.2 (Or.inr (List.mem_singleton.2 rfl))
      · rw [if_neg hxc] at hx
        have hmem := h2 x q hx
        by_cases hq : q = p
        · subst hq
          rw [if_pos rfl]
          exact List.mem_append.2 (Or.inl hmem)
        · rw [if_neg hq]
          exact hmem
    · intro q
      simp only [addOp, if_neg hpc]
      by_cases hq : q = p
      · subst hq
        rw [if_pos rfl, ← List.concat_eq_append]
        exact List.Nodup.concat (hcnot q) (h3 q)
      · rw [if_neg hq]
        exact h3 q

/-- Removing the child at a known index (the common state produced by
`remove_child` and `remove_child_by_ref`) preserves consistency. -/
theorem consistent_removeAt {s : TreeSt} (h : Consistent s) {p i c : Nat}
    (hi : i < (s.children p).length) (hc : (s.children p).get ⟨i, hi⟩ = c) :
    Consistent
      { parent := fun n => if n = c then none else s.parent n,
        children := fun n =>
          if n = p then (s.children p).eraseIdx i else s.children n } := by
  obtain ⟨h1, h2, h3⟩ := h
  have hcmem : c ∈ s.children p := hc ▸ List.get_mem _ _ hi
  have herase : (s.children p).eraseIdx i = (s.children p).erase c := by
    rw [← hc, List.get_eq_getElem]
    exact ((h3 p).erase_getElem i hi).symm
  refine ⟨?_, ?_, ?_⟩
  · intro q x hx
    simp only at hx ⊢
    by_cases hq : q = p
    · subst hq
      rw [if_pos rfl, herase] at hx
      obtain ⟨hxc, hxm⟩ := (h3 q).mem_erase_iff.1 hx
      rw [if_neg hxc]
      exact h1 q x hxm
    · rw [if_neg hq] at hx
      have hxc : x ≠ c := by
        intro hxc
        subst hxc
        exact hq (Option.some.inj ((h1 q x hx).symm.trans (h1 p x hcmem)))
      rw [if_neg hxc]
      exact h1 q x hx
  · intro x q hx
    simp only at hx ⊢
    by_cases hxc : x = c
    · rw [if_pos hxc] at hx
      exact Option.noConfusion hx
    · rw [if_neg hxc] at hx
      have hmem := h2 x q hx
      by_cases hq : q = p
      · subst hq
        rw [if_pos rfl, herase]
        exact (h3 q).mem_erase_iff.2 ⟨hxc, hmem⟩
      · rw [if_neg hq]
        exact hmem
  · intro q
    simp only
    by_cases hq : q = p
    · subst hq
      rw [if_pos rfl, herase]
      exact (h3 q).erase c
    · rw [if_neg hq]
      exact h3 q

theorem consistent_remove_child {s : TreeSt} (h : Consistent s) (p i : Nat) :
    Consistent (remove_child s p i).2 := by
  rw [remove_child]
  by_cases hi : i < (s.children p).length
  · rw [dif_pos hi]
    exact consistent_removeAt h hi rfl
  · rw [dif_neg hi]
    exact h

theorem consistent_remove_child_by_ref {s : TreeSt} (h : Consistent s) (p c : Nat) :
    Consistent (remove_child_by_ref s p c).2 := by
  rw [remove_child_by_ref]
  cases hpos : position (s.children p) c with
  | none => exact h
  | some i =>
    obtain ⟨hi, hget⟩ := position_some hpos
    exact consistent_removeAt h hi hget

theorem consistent_remove_all_children {s : TreeSt} (h : Consistent s) (p : Nat) :
    Consistent (remove_all_children s p) := by
  obtain ⟨h1, h2, h3⟩ := h
  refine ⟨?_, ?_, ?_⟩
  · intro q x hx
    simp only [remove_all_children] at hx ⊢
    by_cases hq : q = p
    · subst hq
      rw [if_pos rfl] at hx
      exact absurd hx (List.not_mem_nil x)
    · rw [if_neg hq] at hx
      have hxp : x ∉ s.children p := by
        intro hxp
        exact hq (Option.some.inj ((h1 q x hx).symm.trans (h1 p x hxp)))
      rw [if_neg hxp]
      exact h1 q x hx
  · intro x q hx
    simp only [remove_all_children] at hx ⊢
    by_cases hxp : x ∈ s.children p
    · rw [if_pos hxp] at hx
      exact Option.noConfusion hx
    · rw [if_neg hxp] at hx
      have hmem := h2 x q hx
      have hq : q ≠ p := fun hq => hxp (hq ▸ hmem)
      rw [if_neg hq]
      exact hmem
  · intro q
    simp only [remove_all_children]
    by_cases hq : q = p
    · rw [if_pos hq]
      exact List.nodup_nil
    · rw [if_neg hq]
      exact h3 q

theorem consistent_applyOp {s : TreeSt} (op : TreeOp) (h : Consistent s)
    (hp : precondOk s op) : Consistent (applyOp s op) := by
  cases op with
  | add p c => exact consistent_addOp p c h hp
  | removeChild p i => exact consistent_remove_child h p i
  | removeByRef p c => exact consistent_remove_child_by_ref h p c
  | removeAll p => exact consistent_remove_all_children h p

theorem consistent_execOps (tr : List TreeOp) :
    ∀ s : TreeSt, Consistent s → ValidFrom s tr → Consistent (execOps s tr) := by
  induction tr with
  | nil => exact fun s h _ => h
  | cons op rest ih =>
    intro s h hv
    exact ih _ (consistent_applyOp op h hv.1) hv.2

/-! ## Predicates used to state the round-trip claim -/

/-- The text contains none of the five reserved characters. -/
def freeOfReserved (x : List Char) : Prop :=
  ∀ c ∈ x, c ≠ '"' ∧ c ≠ '\'' ∧ c ≠ '&' ∧ c ≠ '<' ∧ c ≠ '>'

instance (x : List Char) : Decidable (freeOfReserved x) := by
  unfold freeOfReserved
  infer_instance

/-- The candidate name is one of the five entity names known to the codec. -/
def knownEntityName (n : List Char) : Bool :=
  decide (n = ['q', 'u', 'o', 't']) || decide (n = ['a', 'p', 'o', 's']) ||
  decide (n = ['a', 'm', 'p']) || decide (n = ['l', 't']) || decide (n = ['g', 't'])

/-- The text contains no `&` followed by an unterminated or unknown
entity-like substring: every `&` is followed by a `;`-terminated known
entity name.  The scan mirrors the one of `un_escape_ascii`. -/
def wellFormedAmps : List Char → Bool
  | [] => true
  | c :: rest =>
    if c = '&' then
      decide (';' ∈ rest) && knownEntityName (takeName rest).1
        && wellFormedAmps (takeName rest).2
    else wellFormedAmps rest
termination_by l => l.length
decreasing_by
  · have := takeName_snd_length rest
    simp only [List.length_cons]
    omega
  · simp

/-! ## Helper lemmas about the modelled attribute map -/

theorem keys_mapVals (f : List Char → List Char) (m : List (List Char × List Char)) :
    (mapVals f m).map Prod.fst = m.map Prod.fst := by
  induction m with
  | nil => rfl
  | cons kv rest ih => simp [mapVals] at ih ⊢

theorem mapVals_insertKw (f : List Char → List Char)
    (m : List (List Char × List Char)) (k v : List Char) :
    mapVals f (insertKw m k v) = insertKw (mapVals f m) k (f v) := by
  unfold insertKw
  rw [keys_mapVals]
  by_cases hk : k ∈ m.map Prod.fst
  · rw [if_pos hk, if_pos hk]
    simp only [mapVals, List.map_map]
    congr 1
    funext kv
    by_cases hkv : kv.1 = k <;> simp [hkv]
  · rw [if_neg hk, if_neg hk]
    simp [mapVals]

theorem mapVals_foldl_insertKw (f g : List Char → List Char)
    (l : List (List Char × List Char)) :
    ∀ acc : List (List Char × List Char),
      mapVals f (l.foldl (fun m kv => insertKw m kv.1 (g kv.2)) acc)
        = l.foldl (fun m kv => insertKw m kv.1 (f (g kv.2))) (mapVals f acc) := by
  induction l with
  | nil => intro acc; rfl
  | cons kv rest ih =>
    intro acc
    simp only [List.foldl_cons]
    rw [ih, mapVals_insertKw]

theorem lookupKw_map_overwrite_self {m : List (List Char × List Char)}
    {k : List Char} (hk : k ∈ m.map Prod.fst) (v : List Char) :
    lookupKw (m.map fun kv => if kv.1 = k then (k, v) else kv) k = some v := by
  induction m with
  | nil => simp at hk
  | cons kv rest ih =>
    simp only [List.map_cons]
    by_cases hkv : kv.1 = k
    · rw [if_pos hkv]
      simp [lookupKw]
    · rw [if_neg hkv]
      rw [lookupKw, if_neg hkv]
      have hr : k ∈ rest.map Prod.fst := by
        rcases List.mem_map.1 hk with ⟨x, hx, hxk⟩
        rcases List.mem_cons.1 hx with rfl | hx'
        · exact absurd hxk hkv
        · exact List.mem_map.2 ⟨x, hx', hxk⟩
      exact ih hr

theorem lookupKw_map_overwrite_other {k k' : List Char} (hne : k' ≠ k)
    (v : List Char) (m : List (List Char × List Char)) :
    lookupKw (m.map fun kv => if kv.1 = k then (k, v) else kv) k'
      = lookupKw m k' := by
  induction m with
  | nil => rfl
  | cons kv rest ih =>
    simp only [List.map_cons]
    by_cases hkv : kv.1 = k
    · rw [if_pos hkv]
      have h1 : k ≠ k' := fun h => hne h.symm
      have h2 : kv.1 ≠ k' := hkv ▸ h1
      rw [lookupKw, if_neg h1, lookupKw, if_neg h2]
      exact ih
    · rw [if_neg hkv]
      by_cases hkv' : kv.1 = k'
      · rw [lookupKw, if_pos hkv', lookupKw, if_pos hkv']
      · rw [lookupKw, if_neg hkv', lookupKw, if_neg hkv']
        exact ih

theorem lookupKw_append_single_self {m : List (List Char × List Char)}
    {k : List Char} (hk : k ∉ m.map Prod.fst) (v : List Char) :
    lookupKw (m ++ [(k, v)]) k = some v := by
  induction m with
  | nil => simp [lookupKw]
  | cons kv rest ih =>
    have hkv : kv.1 ≠ k := fun h => hk (by simp [h])
    have hr : k ∉ rest.map Prod.fst := fun h => hk (by simp [h])
    rw [List.cons_append, lookupKw, if_neg hkv]
    exact ih hr

theorem lookupKw_append_single_other {k k' : List Char} (hne : k' ≠ k)
    (v : List Char) (m : List (List Char × List Char)) :
    lookupKw (m ++ [(k, v)]) k' = lookupKw m k' := by
  induction m with
  | nil =>
    have h1 : k ≠ k' := fun h => hne h.symm
    simp [lookupKw, h1]
  | cons kv rest ih =>
    by_cases hkv : kv.1 = k'
    · rw [List.cons_append, lookupKw, if_pos hkv, lookupKw, if_pos hkv]
    · rw [List.cons_append, lookupKw, if_neg hkv, lookupKw, if_neg hkv]
      exact ih

theorem lookupKw_insertKw_self (m : List (List Char × List Char)) (k v : List Char) :
    lookupKw (insertKw m k v) k = some v := by
  unfold insertKw
  by_cases hk : k ∈ m.map Prod.fst
  · rw [if_pos hk]
    exact lookupKw_map_overwrite_self hk v
  · rw [if_neg hk]
    exact lookupKw_append_single_self hk v

theorem lookupKw_insertKw_other {k k' : List Char} (hne : k' ≠ k)
    (m : List (List Char × List Char)) (v : List Char) :
    lookupKw (insertKw m k v) k' = lookupKw m k' := by
  unfold insertKw
  by_cases hk : k ∈ m.map Prod.fst
  · rw [if_pos hk]
    exact lookupKw_map_overwrite_other hne v m
  · rw [if_neg hk]
    exact lookupKw_append_single_other hne v m

theorem takeName_no_semi {rest : List Char} (h : ';' ∉ rest) :
    takeName rest = (rest, []) := by
  induction rest with
  | nil => rfl
  | cons c t ih =>
    have hc : c ≠ ';' := fun hc => h (by simp [hc])
    have ht : ';' ∉ t := fun ht => h (List.mem_cons_of_mem _ ht)
    simp [takeName, hc, ih ht]

theorem unEsc_amp_lt : un_escape_ascii ['&', '<'] = ['&'] := by
  rw [unEsc_cons]
  simp [takeName, decodeName, unEsc_nil]

theorem set_attr_kwsMap (e : Element) (n v : List Char) :
    (e.set_attr n v).kwsMap = insertKw e.kwsMap n (escape_ascii v) := by
  cases e
  rfl

theorem attrs_kwsMap (e : Element) (l : List (List Char × List Char)) :
    (e.attrs l).kwsMap
      = l.foldl (fun acc kv => insertKw acc kv.1 (escape_ascii (escape_ascii kv.2))) [] := by
  cases e
  show mapVals escape_ascii (attrsBuildMap l) = _
  unfold attrsBuildMap
  rw [mapVals_foldl_insertKw]
  rfl

/-! ## The claims -/

/-- C3: for every string free of the five reserved characters, and for every
string with no `&` followed by an unterminated or unknown entity-like
substring, `un_escape_ascii` after `escape_ascii` is the identity. -/
theorem c3_escape_unescape_roundtrip (x y : List Char)
    (hx : freeOfReserved x) (hy : wellFormedAmps y = true) :
    un_escape_ascii (escape_ascii x) = x ∧ un_escape_ascii (escape_ascii y) = y :=
  ⟨unEsc_escape x, unEsc_escape y⟩

theorem c3_escape_unescape_roundtrip_witness :
    freeOfReserved ['a', 'b', 'c']
    ∧ wellFormedAmps ['a', '&', 'a', 'm', 'p', ';', 'b'] = true
    ∧ un_escape_ascii (escape_ascii ['a', 'b', 'c']) = ['a', 'b', 'c']
    ∧ un_escape_ascii (escape_ascii ['a', '&', 'a', 'm', 'p', ';', 'b'])
        = ['a', '&', 'a', 'm', 'p', ';', 'b'] := by
  have hx : freeOfReserved ['a', 'b', 'c'] := by decide
  have hy : wellFormedAmps ['a', '&', 'a', 'm', 'p', ';', 'b'] = true := by
    simp [wellFormedAmps, takeName, knownEntityName]
  have h := c3_escape_unescape_roundtrip ['a', 'b', 'c']
    ['a', '&', 'a', 'm', 'p', ';', 'b'] hx hy
  exact ⟨hx, hy, h.1, h.2⟩

/-- C6: `un_escape_ascii` scans left to right; a non-`&` character is
emitted unchanged; at `&` it consumes up to and including the next `;` as a
candidate name and emits the decoded character; `takeName` consumes exactly
up to the first `;` (or everything if none); the five known names decode to
their literal characters and every other name decodes to a single `&` (the
consumed characters are discarded). -/
theorem c6_unescape_scan :
    (∀ (c : Char) (rest : List Char), c ≠ '&' →
        un_escape_ascii (c :: rest) = c :: un_escape_ascii rest)
    ∧ (∀ rest : List Char,
        un_escape_ascii ('&' :: rest)
          = decodeName (takeName rest).1 :: un_escape_ascii (takeName rest).2)
    ∧ (∀ (name t : List Char), ';' ∉ name → takeName (name ++ ';' :: t) = (name, t))
    ∧ (∀ rest : List Char, ';' ∉ rest → takeName rest = (rest, []))
    ∧ decodeName ['q', 'u', 'o', 't'] = '"'
    ∧ decodeName ['a', 'p', 'o', 's'] = '\''
    ∧ decodeName ['a', 'm', 'p'] = '&'
    ∧ decodeName ['l', 't'] = '<'
    ∧ decodeName ['g', 't'] = '>'
    ∧ ∀ name : List Char,
        name ≠ ['q', 'u', 'o', 't'] → name ≠ ['a', 'p', 'o', 's'] →
        name ≠ ['a', 'm', 'p'] → name ≠ ['l', 't'] → name ≠ ['g', 't'] →
        decodeName name = '&' := by
  refine ⟨fun c rest h => unEsc_cons_not_amp h rest,
    fun rest => by rw [unEsc_cons, if_pos rfl],
    fun name t h => takeName_append_semi h t,
    fun rest h => takeName_no_semi h,
    by decide, by decide, by decide, by decide, by decide,
    fun name h1 h2 h3 h4 h5 => ?_⟩
  unfold decodeName
  rw [if_neg h1, if_neg h2, if_neg h3, if_neg h4, if_neg h5]

theorem c6_unescape_scan_witness :
    un_escape_ascii ['x', 'y'] = 'x' :: un_escape_ascii ['y']
    ∧ un_escape_ascii ('&' :: ['a', 'b'])
        = decodeName (takeName ['a', 'b']).1 :: un_escape_ascii (takeName ['a', 'b']).2
    ∧ takeName (['a', 'm', 'p'] ++ ';' :: ['z']) = (['a', 'm', 'p'], ['z'])
    ∧ takeName ['q'] = (['q'], [])
    ∧ decodeName ['z'] = '&' :=
  ⟨c6_unescape_scan.1 'x' ['y'] (by decide),
   c6_unescape_scan.2.1 ['a', 'b'],
   c6_unescape_scan.2.2.1 ['a', 'm', 'p'] ['z'] (by decide),
   c6_unescape_scan.2.2.2.1 ['q'] (by decide),
   c6_unescape_scan.2.2.2.2.2.2.2.2.2 ['z'] (by decide) (by decide) (by decide)
     (by decide) (by decide)⟩

/-- C8: construction with content `a&b` stores `a&amp;b`; toggling raw mode
on restores `a&b`; in general `pre true` un-escapes the stored content and
every stored attribute value. -/
theorem c8_raw_mode_round_trip :
    (Element.new ['t'] ['a', '&', 'b']).content = ['a', '&', 'a', 'm', 'p', ';', 'b']
    ∧ ((Element.new ['t'] ['a', '&', 'b']).pre true).content = ['a', '&', 'b']
    ∧ ∀ e : Element, (e.pre true).content = un_escape_ascii e.content
        ∧ (e.pre true).kwsMap = mapVals un_escape_ascii e.kwsMap := by
  refine ⟨by decide, ?_, fun e => by cases e; exact ⟨rfl, rfl⟩⟩
  have h : ((Element.new ['t'] ['a', '&', 'b']).pre true).content
      = un_escape_ascii (escape_ascii ['a', '&', 'b']) := rfl
  rw [h, unEsc_escape]

/-- C10: `pre true` re-applies `un_escape_ascii` to the stored content and
attribute values whenever the argument is true (not only on a non-raw-to-raw
transition), so it can decode already-literal data further; `pre false`
leaves the stored data untouched. -/
theorem c10_pre_true_retranscodes :
    (∀ e : Element, (e.pre true).content = un_escape_ascii e.content
      ∧ (e.pre true).kwsMap = mapVals un_escape_ascii e.kwsMap
      ∧ (e.pre false).content = e.content
      ∧ (e.pre false).kwsMap = e.kwsMap)
    ∧ ((Element.new ['t'] ['&', '<']).pre true).preFlag = true
    ∧ (((Element.new ['t'] ['&', '<']).pre true).pre true).content
        ≠ ((Element.new ['t'] ['&', '<']).pre true).content := by
  have hgen : ∀ e : Element, (e.pre true).content = un_escape_ascii e.content := by
    intro e
    cases e
    rfl
  refine ⟨fun e => by cases e; exact ⟨rfl, rfl, rfl, rfl⟩, rfl, ?_⟩
  have h1 : ((Element.new ['t'] ['&', '<']).pre true).content = ['&', '<'] := by
    have h : ((Element.new ['t'] ['&', '<']).pre true).content
        = un_escape_ascii (escape_ascii ['&', '<']) := rfl
    rw [h, unEsc_escape]
  rw [hgen, h1, unEsc_amp_lt]
  decide

/-- C1 as stated is false: a node in raw mode still has `kws` values
escaped (`Element::kws` never consults the `pre` flag). -/
theorem c1_counterexample :
    (Element.mk ['d'] [] [] false true []).preFlag = true
    ∧ ((Element.mk ['d'] [] [] false true []).kws [(['k'], ['&'])]).kwsMap
        ≠ [(['k'], ['&'])] := by
  decide

/-- C1 amended: `configkws` replaces the whole attribute map and escapes
each value exactly once unless the node is in raw mode (verbatim when raw);
`kws` replaces the whole map and escapes each value exactly once regardless
of raw mode; `attrs` replaces the whole map and escapes each value exactly
twice regardless of raw mode. -/
theorem c1_replace_all_attributes (e : Element)
    (m l : List (List Char × List Char)) :
    (e.configkws m).kwsMap = (if e.preFlag then m else mapVals escape_ascii m)
    ∧ (e.kws m).kwsMap = mapVals escape_ascii m
    ∧ (e.attrs l).kwsMap
        = l.foldl (fun acc kv => insertKw acc kv.1 (escape_ascii (escape_ascii kv.2))) [] := by
  refine ⟨?_, ?_, attrs_kwsMap e l⟩
  · cases e
    rfl
  · cases e
    rfl

/-- C5 as stated is false: `set_attr` escapes the value even when the node
is in raw mode. -/
theorem c5_counterexample :
    (Element.mk ['d'] [] [] false true []).preFlag = true
    ∧ ((Element.mk ['d'] [] [] false true []).set_attr ['k'] ['&']).kwsMap
        ≠ [(['k'], ['&'])] := by
  decide

/-- C5 amended: `set_attr` inserts or overwrites only the given entry,
leaving every other entry and every other field unchanged, and escapes the
value exactly once regardless of raw mode; `set_attrs` is `set_attr` folded
over the list. -/
theorem c5_set_attr_insert_overwrite (e : Element) (n v n' : List Char)
    (h : n' ≠ n) (l : List (List Char × List Char)) :
    lookupKw (e.set_attr n v).kwsMap n = some (escape_ascii v)
    ∧ lookupKw (e.set_attr n v).kwsMap n' = lookupKw e.kwsMap n'
    ∧ (e.set_attr n v).tag = e.tag
    ∧ (e.set_attr n v).content = e.content
    ∧ (e.set_attr n v).onetagFlag = e.onetagFlag
    ∧ (e.set_attr n v).preFlag = e.preFlag
    ∧ e.set_attrs l = l.foldl (fun a kv => a.set_attr kv.1 kv.2) e := by
  refine ⟨?_, ?_, by cases e; rfl, by cases e; rfl, by cases e; rfl, by cases e; rfl, rfl⟩
  · rw [set_attr_kwsMap]
    exact lookupKw_insertKw_self _ _ _
  · rw [set_attr_kwsMap]
    exact lookupKw_insertKw_other h _ _

theorem c5_set_attr_insert_overwrite_witness :
    lookupKw ((Element.mk ['d'] [] [(['x'], ['1'])] false false []).set_attr
        ['k'] ['&']).kwsMap ['k'] = some (escape_ascii ['&'])
    ∧ lookupKw ((Element.mk ['d'] [] [(['x'], ['1'])] false false []).set_attr
        ['k'] ['&']).kwsMap ['x']
        = lookupKw (Element.mk ['d'] [] [(['x'], ['1'])] false false []).kwsMap ['x'] := by
  have h := c5_set_attr_insert_overwrite
    (Element.mk ['d'] [] [(['x'], ['1'])] false false []) ['k'] ['&'] ['x']
    (by decide) []
  exact ⟨h.1, h.2.1⟩

/-- C9: a node with an empty tag renders to exactly its stored content,
whatever its attributes, flags, children or the separator. -/
theorem c9_empty_tag_renders_content (content : List Char)
    (kws : List (List Char × List Char)) (ot p : Bool)
    (children : List Element) (sep : List Char) :
    Element.render (.mk [] content kws ot p children) sep = content := by
  rw [Element.render]
  simp

/-- C4: for a non-empty tag, the rendered text is the opening tag with
attributes, the content, each child preceded by the separator, and then:
the separator alone when the void flag is set (no closing tag even with
children); the separator then `</tag>` when the flag is off and children
exist; `</tag>` immediately when the flag is off and there are no
children. -/
theorem c4_render_closing (tag content : List Char)
    (kws : List (List Char × List Char)) (ot p : Bool)
    (children : List Element) (sep : List Char) (h : tag ≠ []) :
    (ot = true →
      Element.render (.mk tag content kws ot p children) sep
        = ('<' :: (tag ++ attrsText kws ++ ['>'] ++ content
            ++ renderChildren children sep)) ++ sep)
    ∧ (ot = false → children ≠ [] →
      Element.render (.mk tag content kws ot p children) sep
        = ('<' :: (tag ++ attrsText kws ++ ['>'] ++ content
            ++ renderChildren children sep)) ++ sep ++ ('<' :: '/' :: (tag ++ ['>'])))
    ∧ (ot = false → children = [] →
      Element.render (.mk tag content kws ot p children) sep
        = ('<' :: (tag ++ attrsText kws ++ ['>'] ++ content))
            ++ ('<' :: '/' :: (tag ++ ['>'])))
    ∧ ∀ (c : Element) (cs : List Element),
        renderChildren (c :: cs) sep = sep ++ Element.render c sep ++ renderChildren cs sep := by
  refine ⟨?_, ?_, ?_, fun c cs => by rw [renderChildren]⟩
  · intro hot
    subst hot
    rw [Element.render]
    simp [h]
  · intro hot hch
    subst hot
    rw [Element.render]
    simp [h, hch]
  · intro hot hch
    subst hot
    subst hch
    rw [Element.render]
    simp [h, renderChildren]

theorem c4_render_closing_witness :
    Element.render (.mk ['m'] [] [] true false []) [' ']
      = ('<' :: (['m'] ++ attrsText [] ++ ['>'] ++ []
          ++ renderChildren [] [' '])) ++ [' ']
    ∧ renderChildren [Element.mk [] ['x'] [] false false []] [' ']
      = [' '] ++ Element.render (Element.mk [] ['x'] [] false false []) [' ']
          ++ renderChildren [] [' '] := by
  have h := c4_render_closing ['m'] [] [] true false [] [' '] (by decide)
  exact ⟨h.1 rfl, h.2.2.2 (Element.mk [] ['x'] [] false false []) []⟩

/-- C2: starting from the detached forest, any sequence of `add`,
`remove_child`, `remove_child_by_ref` and `remove_all_children` operations
in which a node is only attached while it has no parent keeps the tree
bidirectionally consistent (a listed child's parent reference resolves to
the listing parent, a parent reference is matched by a children entry,
children lists are duplicate-free) and leaves every detached node with an
absent parent reference. -/
theorem c2_tree_consistency (tr : List TreeOp) (hv : ValidFrom initSt tr) :
    Consistent (execOps initSt tr)
    ∧ ∀ c : Nat, (∀ q : Nat, c ∉ (execOps initSt tr).children q)
        → (execOps initSt tr).parent c = none := by
  have hcons := consistent_execOps tr initSt consistent_initSt hv
  refine ⟨hcons, fun c hdet => ?_⟩
  obtain ⟨h1, h2, h3⟩ := hcons
  cases hp : (execOps initSt tr).parent c with
  | none => rfl
  | some q => exact absurd (h2 c q hp) (hdet q)

theorem c2_tree_consistency_witness :
    Consistent (execOps initSt
      [TreeOp.add 0 1, TreeOp.add 0 2, TreeOp.add 1 3,
       TreeOp.removeByRef 0 1, TreeOp.removeChild 0 0, TreeOp.removeAll 1]) := by
  have h := c2_tree_consistency
    [TreeOp.add 0 1, TreeOp.add 0 2, TreeOp.add 1 3,
     TreeOp.removeByRef 0 1, TreeOp.removeChild 0 0, TreeOp.removeAll 1]
    ⟨rfl, rfl, rfl, trivial, trivial, trivial, trivial⟩
  exact h.1

/-- C7: `remove_child` returns `None` and leaves the state unchanged when
the index is out of bounds, and otherwise returns the child at that index;
`remove_child_by_ref` returns `true` exactly when the child is present, in
which case it removes it and clears its parent reference, and returns
`false` with the state unchanged otherwise.  The hypotheses record that the
parent is not its own child (the source would panic on a second `borrow_mut`
there) and that its children vector is duplicate-free; both hold in every
state reachable by the API. -/
theorem c7_remove_child_results (s : TreeSt) (p i c : Nat)
    (hself : p ∉ s.children p) (hnd : (s.children p).Nodup) :
    ((s.children p).length ≤ i → remove_child s p i = (none, s))
    ∧ (∀ h : i < (s.children p).length,
        (remove_child s p i).1 = some ((s.children p).get ⟨i, h⟩))
    ∧ ((remove_child_by_ref s p c).1 = true ↔ c ∈ s.children p)
    ∧ (c ∉ s.children p → remove_child_by_ref s p c = (false, s))
    ∧ (c ∈ s.children p →
        c ∉ ((remove_child_by_ref s p c).2).children p
        ∧ ((remove_child_by_ref s p c).2).parent c = none) := by
  refine ⟨?_, ?_, ?_, ?_, ?_⟩
  · intro hle
    rw [remove_child, dif_neg (Nat.not_lt.2 hle)]
  · intro hlt
    rw [remove_child, dif_pos hlt]
  · constructor
    · intro htrue
      by_contra hc
      rw [remove_child_by_ref, position_none_iff.2 hc] at htrue
      exact Bool.noConfusion htrue
    · intro hc
      cases hpos : position (s.children p) c with
      | none => exact absurd hc (position_none_iff.1 hpos ·)
      | some j => rw [remove_child_by_ref, hpos]
  · intro hc
    rw [remove_child_by_ref, position_none_iff.2 hc]
  · intro hc
    cases hpos : position (s.children p) c with
    | none => exact absurd hc (position_none_iff.1 hpos ·)
    | some j =>
      obtain ⟨hj, hget⟩ := position_some hpos
      have herase : (s.children p).eraseIdx j = (s.children p).erase c := by
        rw [← hget, List.get_eq_getElem]
        exact (hnd.erase_getElem j hj).symm
      rw [remove_child_by_ref, hpos]
      refine ⟨?_, ?_⟩
      · simp only [if_pos rfl, herase]
        intro hmem
        exact (hnd.mem_erase_iff.1 hmem).1 rfl
      · simp

theorem c7_remove_child_results_witness :
    (0 : Nat) ∉ (execOps initSt [TreeOp.add 0 1, TreeOp.add 0 2]).children 0
    ∧ ((execOps initSt [TreeOp.add 0 1, TreeOp.add 0 2]).children 0).Nodup
    ∧ remove_child (execOps initSt [TreeOp.add 0 1, TreeOp.add 0 2]) 0 5
        = (none, execOps initSt [TreeOp.add 0 1, TreeOp.add 0 2])
    ∧ ((remove_child_by_ref (execOps initSt [TreeOp.add 0 1, TreeOp.add 0 2]) 0 1).1
        = true ↔ 1 ∈ (execOps initSt [TreeOp.add 0 1, TreeOp.add 0 2]).children 0) := by
  have h := c7_remove_child_results (execOps initSt [TreeOp.add 0 1, TreeOp.add 0 2])
    0 5 1 (by decide) (by decide)
  exact ⟨by decide, by decide, h.1 (by decide), h.2.2.1⟩

end RustHtmlBuilder
